import Mathlib

/-!
Packages `slice` and `optional` of lancet.

A shallow embedding of `slice/slice.go`, and of the optional value of package `optional`
as the specification describes it: Go slices are lists, a Go `int` is an `Int`, a
`nil` interface result is `none`, and a call that may return an error or panic returns an
`Outcome`. Element types are comparable. The set operations under `WithEq` take Go's `==`
on the elements as a parameter, which need not be reflexive (NaN); `Unique` and
`Intersection` outside it are their case where `==` is the equality of the type.
The definitions come first, then lemmas on the loops, then the properties of the
specification.
-/

namespace Slice

universe u
variable {α : Type u}

/-- Result of a Go call that either returns a value, returns a non-nil error, or panics. -/
inductive Outcome (α : Type u) where
  | ok (v : α)
  | error (msg : String)
  | panic (msg : String)
  deriving DecidableEq

/-- The Go slice expression `s[lo:hi]` on a slice whose bounds are in range. -/
def subSlice (s : List α) (lo hi : Nat) : List α :=
  (s.take hi).drop lo

/-- Body of the `for i := 0; i < divideNum; i++` loop of `Chunk` (slice.go:70-78). -/
def chunkStep (slice : List α) (size divideNum : Nat) (res : List (List α)) (i : Nat) :
    List (List α) :=
  if i = divideNum - 1 then
    if (slice.drop (i * size)).length > 0 then
      res ++ [slice.drop (i * size)]
    else
      res
  else
    res ++ [subSlice slice (i * size) ((i + 1) * size)]

/-- Embedding of `Chunk` (slice.go:51-81); `size` is a Go `int`. -/
def Chunk (slice : List α) (size : Int) : List (List α) :=
  if slice.length = 0 ∨ size ≤ 0 then
    []
  else
    let length := slice.length
    if size = 1 ∨ size ≥ (length : Int) then
      slice.foldl (fun res v => res ++ [[v]]) []
    else
      let divideNum := length / size.toNat + 1
      (List.range divideNum).foldl (chunkStep slice size.toNat divideNum) []

/-- A fresh slice of length `n` (`reflect.MakeSlice`) whose index `i` is then set to
`src[i]` for every `i < n`, the copy loop that ends `Unique`, `Union` and `reduceFunc`. -/
def copySlice (src : List α) (n : Nat) : List α :=
  (List.range n).filterMap (fun i => src[i]?)

/-- Inner `for j := range temp` scan of `Unique` (slice.go:504-510): the value of
`skip` once the scan ends; it becomes `false` at the first `temp[j]` equal to `v`. -/
def uniqueSkip [DecidableEq α] (v : α) : List α → Bool
  | [] => true
  | t :: ts => if v = t then false else uniqueSkip v ts

/-- Body of the outer loop of `Unique` (slice.go:502-514). -/
def uniqueStep [DecidableEq α] (temp : List α) (v : α) : List α :=
  if uniqueSkip v temp then temp ++ [v] else temp

/-- Embedding of `Unique` (slice.go:494-521), on a comparable element type whose `==` is the
equality of the type; `WithEq.Unique` is the embedding under any `==`. -/
def Unique [DecidableEq α] (slice : List α) : List α :=
  if slice.length = 0 then
    slice
  else
    let temp := slice.foldl uniqueStep []
    copySlice temp temp.length

/-- Loop `for i := 2; i < len; i++` of `Reduce` (slice.go:312-317), entered at index `i`
with the elements from `i` on still to be folded. -/
def reduceLoop {β : Type u} (function : Nat → β → β → β) : Nat → β → List β → β
  | _, res, [] => res
  | i, res, x :: xs => reduceLoop function (i + 1) (function i res x) xs

/-- Embedding of `Reduce` (slice.go:288-320). -/
def Reduce {β : Type u} (slice : List β) (function : Nat → β → β → β) (zero : β) : β :=
  match slice with
  | [] => zero
  | [x] => x
  | x0 :: x1 :: rest => reduceLoop function 2 (function 0 x0 x1) rest

/-- A Go `map[interface{}]bool`, as a finite partial function on keys. -/
abbrev BoolMap (α : Type u) := α → Option Bool

def BoolMap.empty : BoolMap α := fun _ => none

def BoolMap.set [DecidableEq α] (m : BoolMap α) (k : α) (b : Bool) : BoolMap α :=
  fun k' => if k' = k then some b else m k'

/-- The closure `reduceFunc` of `Intersection` (slice.go:569-591) on two slices. -/
def intersect2 [DecidableEq α] (slice1 slice2 : List α) : List α :=
  let hash : BoolMap α := slice1.foldl (fun h v => h.set v true) BoolMap.empty
  let set := slice2.foldl (fun set el => if (hash el).isSome then set ++ [el] else set) []
  copySlice set set.length

/-- The closure `reduceFunc` on interface values. An argument `none` is a `nil`
interface, on which `reflect.ValueOf(..).Len()` panics; the fold of `Intersection` never
passes one, and the result `none` stands for that failure. -/
def reduceFunc [DecidableEq α] (_index : Nat) (slice1 slice2 : Option (List α)) :
    Option (List α) :=
  match slice1, slice2 with
  | some sv1, some sv2 => some (intersect2 sv1 sv2)
  | _, _ => none

/-- Embedding of `Intersection` (slice.go:564-595); `none` is the `nil` interface value. -/
def Intersection [DecidableEq α] (slices : List (List α)) : Option (List α) :=
  if slices.length = 0 then
    none
  else
    match Reduce (slices.map some) reduceFunc none with
    | some res => some (Unique res)
    | none => none

/-- The subsequence of `s` that keeps index `i` exactly when `s[i]` does not occur among
`s[0..i)`: each value's first occurrence, in the order of `s`. -/
def firstOccurrences [DecidableEq α] (s : List α) : List α :=
  s.enum.filterMap (fun p => if p.2 ∈ s.take p.1 then none else some p.2)

/-- The elements of `r` are listed in the order of their first occurrence in `s`. -/
def InFirstOccurrenceOrder [DecidableEq α] (r s : List α) : Prop :=
  r.Pairwise (fun x y => s.indexOf x < s.indexOf y)

/-- The call `v.Slice(i, j)` of package reflect on a slice value whose capacity equals its
length: it panics unless `0 ≤ i ≤ j ≤ cap`. -/
def reflectSlice (v : List α) (i j : Int) : Outcome (List α) :=
  if i < 0 ∨ j < i ∨ j > (v.length : Int) then
    .panic "reflect.Value.Slice: slice index out of bounds"
  else
    .ok ((v.take j.toNat).drop i.toNat)

/-- The call `reflect.AppendSlice(a, b)` on the results of two `Slice` calls. -/
def appendSlice (a b : Outcome (List α)) : Outcome (List α) :=
  match a, b with
  | .ok x, .ok y => .ok (x ++ y)
  | .ok _, other => other
  | other, _ => other

/-- Embedding of `DeleteByIndex` (slice.go:392-409); `end_` is the variadic `end ...int`. -/
def DeleteByIndex (slice : List α) (start : Int) (end_ : List Int) : Outcome (List α) :=
  let v := slice
  let i := start
  if v.length = 0 ∨ i < 0 ∨ i > (v.length : Int) then
    .error "InvalidStartIndex"
  else
    match end_ with
    | j :: _ =>
      if j ≤ i ∨ j > (v.length : Int) then
        .error "InvalidEndIndex"
      else
        appendSlice (reflectSlice v 0 i) (reflectSlice v j v.length)
    | [] =>
      appendSlice (reflectSlice v 0 i) (reflectSlice v (i + 1) v.length)

/-- Kinds of struct field types that `SortByField` tells apart (slice.go:641-654). -/
inductive Kind where
  | int | uint | float | string | bool | other
  deriving DecidableEq

/-- The value held in a struct field. -/
inductive FieldVal where
  | int (v : Int)
  | uint (v : Nat)
  | float (v : Float)
  | string (v : String)
  | bool (v : Bool)
  | other

/-- Element type of the slice handed to `SortByField`. -/
inductive ElemType where
  | struct (fields : List (String × Kind))
  | ptr (elem : ElemType)
  | other

/-- A slice of structs or of pointers to structs: its element type and, per element, the
field values of the struct in declaration order. -/
structure StructSlice where
  elemType : ElemType
  elems : List (List FieldVal)

/-- Lexicographic comparison of two strings by code point. -/
def charsLess : List Char → List Char → Bool
  | _, [] => false
  | [], _ :: _ => true
  | x :: xs, y :: ys =>
    if x.toNat < y.toNat then true
    else if y.toNat < x.toNat then false
    else charsLess xs ys

/-- The Go comparison `a < b` on strings: lexicographic on the UTF-8 bytes, which is the
lexicographic order on code points. -/
def stringLess (a b : String) : Bool :=
  charsLess a.data b.data

/-- The `less` closure chosen by the switch on the field kind (slice.go:640-654);
`none` is the `default` branch. -/
def fieldLess : Kind → Option (FieldVal → FieldVal → Bool)
  | .int => some (fun a b => match a, b with
      | .int x, .int y => decide (x < y)
      | _, _ => false)
  | .uint => some (fun a b => match a, b with
      | .uint x, .uint y => decide (x < y)
      | _, _ => false)
  | .float => some (fun a b => match a, b with
      | .float x, .float y => decide (x < y)
      | _, _ => false)
  | .string => some (fun a b => match a, b with
      | .string x, .string y => stringLess x y
      | _, _ => false)
  | .bool => some (fun a b => match a, b with
      | .bool x, .bool y => !x && y
      | _, _ => false)
  | .other => none

/-- Insertion of `x` into the already sorted prefix, held in reverse: `x` moves left past
every element it is `less` than. -/
def insertLeft {β : Type} (less : β → β → Bool) (x : β) : List β → List β
  | [] => [x]
  | y :: ys => if less x y then y :: insertLeft less x ys else x :: y :: ys

/-- The call `sort.Slice`, as the insertion sort the library runs on short slices; on long
slices the library may order elements with equal keys differently. -/
def sortSlice {β : Type} (less : β → β → Bool) (data : List β) : List β :=
  (data.foldl (fun sorted x => insertLeft less x sorted) []).reverse

/-- Embedding of `ReverseSlice` (slice.go:598-604): the swap loop reverses the slice. -/
def ReverseSlice {β : Type} (slice : List β) : List β :=
  slice.reverse

/-- Embedding of `SortByField` (slice.go:622-672). The slice is sorted in place, so the
result carries the slice after the call; `sortType` is the variadic `sortType ...string`.
The renderings of `%T` and of the field type are left out of the error messages. -/
def SortByField (slice : StructSlice) (field : String) (sortType : List String) :
    Outcome (List (List FieldVal)) :=
  let isPtr := match slice.elemType with
    | .ptr _ => true
    | _ => false
  let t := match slice.elemType with
    | .ptr e => e
    | e => e
  match t with
  | .struct fields =>
    match fields.findIdx? (fun f => f.1 == field) with
    | none => .error ("field name " ++ field ++ " not found")
    | some idx =>
      match fieldLess ((fields.map Prod.snd).getD idx Kind.other) with
      | none => .error "field type not supported"
      | some less =>
        if isPtr ∧ 2 ≤ slice.elems.length then
          .panic "reflect: call of reflect.Value.Field on ptr Value"
        else
          let sorted := sortSlice
            (fun a b => less (a.getD idx FieldVal.other) (b.getD idx FieldVal.other)) slice.elems
          match sortType with
          | [] => .panic "runtime error: index out of range [0] with length 0"
          | st :: _ => if st = "desc" then .ok (ReverseSlice sorted) else .ok sorted
  | _ => .error "data type not support, shuld be struct or pointer to struct"

/-- The full chunks `s[i*size:(i+1)*size]` for `i < k`. -/
def fullChunks (s : List α) (size k : Nat) : List (List α) :=
  (List.range k).map (fun i => subSlice s (i * size) ((i + 1) * size))

/-- Every chunk of `Chunk s size` but the last one has exactly `size` elements. -/
def AllButLastHaveSize (s : List α) (size : Int) : Prop :=
  ∀ c ∈ (Chunk s size).dropLast, (c.length : Int) = size

/-- Embedding of `Every` (slice.go:104-122). Here and in the other functions that take a
callback, the callback has the documented signature `func(index int, value T) bool`, for
which the signature check, a helper outside `slice.go`, lets the call go on. -/
def Every (slice : List α) (function : Nat → α → Bool) : Bool :=
  let currentLength := slice.enum.foldl
    (fun currentLength p => if function p.1 p.2 then currentLength + 1 else currentLength) 0
  currentLength == slice.length

/-- Embedding of `None` (slice.go:126-144). -/
def None (slice : List α) (function : Nat → α → Bool) : Bool :=
  let currentLength := slice.enum.foldl
    (fun currentLength p => if !function p.1 p.2 then currentLength + 1 else currentLength) 0
  currentLength == slice.length

/-- Embedding of `Some` (slice.go:148-166). -/
def Some (slice : List α) (function : Nat → α → Bool) : Bool :=
  slice.enum.foldl (fun has p => if function p.1 p.2 then true else has) false

/-- Embedding of `Filter` (slice.go:170-188). -/
def Filter (slice : List α) (function : Nat → α → Bool) : List α :=
  slice.enum.foldl (fun res p => if function p.1 p.2 then res ++ [p.2] else res) []

/-- Embedding of `GroupBy` (slice.go:192-214): the pair `(groupA, groupB)`. -/
def GroupBy (slice : List α) (function : Nat → α → Bool) : List α × List α :=
  slice.enum.foldl
    (fun groups p =>
      if function p.1 p.2 then (groups.1 ++ [p.2], groups.2) else (groups.1, groups.2 ++ [p.2]))
    ([], [])

/-- The loop of `Find` (slice.go:227-234) entered at index `i` with the elements from `i`
on: the value of `index` when the loop ends (`none` for `-1`), and the indexes at which
the callback was called, in call order. The `break` ends the loop at the first match. -/
def findLoop (function : Nat → α → Bool) : Nat → List α → Option Nat × List Nat
  | _, [] => (none, [])
  | i, x :: xs =>
    if function i x then (some i, [i])
    else ((findLoop function (i + 1) xs).1, i :: (findLoop function (i + 1) xs).2)

/-- Embedding of `Find` (slice.go:218-242): the returned value, `none` for the `nil`
interface, and the found flag. -/
def Find (slice : List α) (function : Nat → α → Bool) : Option α × Bool :=
  match (findLoop function 0 slice).1 with
  | none => (none, false)
  | some index => (slice[index]?, true)

/-- The indexes at which `Find` calls the callback, in call order. -/
def FindCalls (slice : List α) (function : Nat → α → Bool) : List Nat :=
  (findLoop function 0 slice).2

/-- The number of low bits of `m` that do not fit the 53-bit significand of a `float64`;
the fuel covers every 64-bit Go `int`. -/
def excessBits : Nat → Nat → Nat
  | 0, _ => 0
  | fuel + 1, m => if m < 2 ^ 53 then 0 else excessBits fuel (m / 2) + 1

/-- The conversion `float64(m)` of a non-negative Go `int`, as the integer that the
resulting float is: `m` itself below `2^53`, and above it `m` rounded to 53 significant
bits, to nearest with ties to even. -/
def roundFloat64 (m : Nat) : Nat :=
  let e := excessBits 64 m
  if e = 0 then
    m
  else
    let q := m / 2 ^ e
    let r := m % 2 ^ e
    let half := 2 ^ (e - 1)
    if r > half ∨ (r = half ∧ q % 2 = 1) then (q + 1) * 2 ^ e else q * 2 ^ e

/-- Embedding of `Drop` (slice.go:412-440). The test
`math.Abs(float64(n)) >= float64(svLen)` compares the two integers after their conversion
to `float64`, which is symmetric in the sign. -/
def Drop (slice : List α) (n : Int) : List α :=
  if n = 0 then
    slice
  else
    let svLen : Int := slice.length
    if roundFloat64 n.natAbs ≥ roundFloat64 slice.length then
      []
    else if n > 0 then
      (List.range (svLen - n).toNat).filterMap (fun i => slice[i + n.toNat]?)
    else
      (List.range (svLen + n).toNat).filterMap (fun i => slice[i]?)

/-- Go types as package reflect tells them apart in `InsertByIndex` and `FlattenDeep`. -/
inductive GoType where
  | int
  | string
  | iface
  | sliceOf (elem : GoType)
  deriving DecidableEq

/-- A Go value together with its dynamic type. -/
inductive GoVal where
  | int (n : Int)
  | string (s : String)
  | slice (elem : GoType) (items : List GoVal)

/-- The call `reflect.TypeOf(value)`: the dynamic type of a value. -/
def GoVal.typeOf : GoVal → GoType
  | .int _ => .int
  | .string _ => .string
  | .slice elem _ => .sliceOf elem

/-- Embedding of `InsertByIndex` (slice.go:445-474) on a slice of type `[]elemT` with the
items `slice`. -/
def InsertByIndex (elemT : GoType) (slice : List GoVal) (index : Int) (value : GoVal) :
    Outcome (List GoVal) :=
  let v := slice
  if index < 0 ∨ index > (v.length : Int) then
    .error "InvalidSliceIndex"
  else
    match value with
    | .slice valueElem vv =>
      if elemT ≠ valueElem then
        .error "InvalidValueType"
      else
        appendSlice (reflectSlice v 0 index)
          (appendSlice (reflectSlice vv 0 vv.length) (reflectSlice v index v.length))
    | _ =>
      if elemT ≠ value.typeOf then
        .error "InvalidValueType"
      else if index = (v.length : Int) then
        .ok (v ++ [value])
      else
        match appendSlice (reflectSlice v 0 (index + 1)) (reflectSlice v index v.length) with
        | .ok v1 => .ok (v1.set index.toNat value)
        | other => other

/-- The test `t.Kind() == reflect.Slice` on a static type. -/
def GoType.isSliceKind : GoType → Bool
  | .sliceOf _ => true
  | _ => false

mutual
/-- Embedding of `flattenRecursive` (slice.go:253-266) on a slice value. The kind of
`item := value.Index(i)` is the kind of the static element type of `value`: the items of a
`[]interface{}` have kind Interface whatever they hold. On a value that is no slice
`value.Len()` panics, which a well-typed call never reaches. -/
def flattenRecursive : GoVal → List GoVal → List GoVal
  | .slice elemT items, result => flattenLoop elemT.isSliceKind items result
  | _, result => result
/-- The loop `for i := 0; i < value.Len(); i++` of `flattenRecursive` over the items that
are left, `itemIsSlice` being the test `item.Kind() == reflect.Slice`. -/
def flattenLoop (itemIsSlice : Bool) : List GoVal → List GoVal → List GoVal
  | [], result => result
  | item :: more, result =>
    if itemIsSlice then flattenLoop itemIsSlice more (flattenRecursive item result)
    else flattenLoop itemIsSlice more (result ++ [item])
end

/-- Embedding of `FlattenDeep` (slice.go:245-251): the items of the result slice, whose
element type comes from a helper outside `slice.go`. -/
def FlattenDeep (slice : GoVal) : List GoVal :=
  flattenRecursive slice []

/-- A `float64` value as `==` sees it: a finite number, here an integer, or NaN. -/
inductive F64 where
  | val (x : Int)
  | nan
  deriving DecidableEq

/-- Go's `==` on `float64` values, also when they are held in interface values: NaN is
equal to no value, itself included. -/
def F64.goEq : F64 → F64 → Bool
  | .val x, .val y => decide (x = y)
  | _, _ => false

namespace WithEq

/-- Inner scan of `Unique` (slice.go:504-510) on an element type whose `==` is `eq`,
which need not be reflexive. -/
def uniqueSkip (eq : α → α → Bool) (v : α) : List α → Bool
  | [] => true
  | t :: ts => if eq v t then false else uniqueSkip eq v ts

/-- Body of the outer loop of `Unique` (slice.go:502-514), with `==` given by `eq`. -/
def uniqueStep (eq : α → α → Bool) (temp : List α) (v : α) : List α :=
  if uniqueSkip eq v temp then temp ++ [v] else temp

/-- Embedding of `Unique` (slice.go:494-521) on an element type whose `==` is `eq`. -/
def Unique (eq : α → α → Bool) (slice : List α) : List α :=
  if slice.length = 0 then
    slice
  else
    let temp := slice.foldl (uniqueStep eq) []
    copySlice temp temp.length

/-- Embedding of `Union` (slice.go:538-561) on an element type whose `==` is `eq`;
`none` is the `nil` interface value returned when no slice is given. -/
def Union (eq : α → α → Bool) (slices : List (List α)) : Option (List α) :=
  if slices.length = 0 then
    none
  else
    let acc := slices.foldl
      (fun (st : List α × Nat) sv => (sv.foldl (fun all v => all ++ [v]) st.1, st.2 + sv.length))
      ([], 0)
    let allSlices := acc.1
    let len := acc.2
    let res := copySlice allSlices len
    some (Unique eq res)

/-- The assignment `hash[k] = b` on a Go map whose keys are compared with `eq`: a later
lookup of `k2` finds the entry when `k2 == k`, so a NaN key is never found again. -/
def mapSet (eq : α → α → Bool) (m : BoolMap α) (k : α) (b : Bool) : BoolMap α :=
  fun k2 => if eq k2 k then some b else m k2

/-- The closure `reduceFunc` of `Intersection` (slice.go:569-591) on two slices, with `==`
given by `eq`. -/
def intersect2 (eq : α → α → Bool) (slice1 slice2 : List α) : List α :=
  let hash : BoolMap α := slice1.foldl (fun h v => mapSet eq h v true) BoolMap.empty
  let set := slice2.foldl (fun set el => if (hash el).isSome then set ++ [el] else set) []
  copySlice set set.length

/-- The closure `reduceFunc` on interface values, with `==` given by `eq`; an argument
`none` is a `nil` interface, which the fold of `Intersection` never passes. -/
def reduceFunc (eq : α → α → Bool) (_index : Nat) (slice1 slice2 : Option (List α)) :
    Option (List α) :=
  match slice1, slice2 with
  | some sv1, some sv2 => some (intersect2 eq sv1 sv2)
  | _, _ => none

/-- Embedding of `Intersection` (slice.go:564-595) on an element type whose `==` is `eq`;
`none` is the `nil` interface value. -/
def Intersection (eq : α → α → Bool) (slices : List (List α)) : Option (List α) :=
  if slices.length = 0 then
    none
  else
    match Reduce (slices.map some) (reduceFunc eq) none with
    | some res => some (Unique eq res)
    | none => none

/-- The `reflect.Slice, reflect.Array` case of `Contain` (slice.go:24-29, 47), with `==`
given by `eq`: the scan returns `true` at the first element `x` with `x == value`, and
`false` when there is none. -/
def Contain (eq : α → α → Bool) (iterableType : List α) (value : α) : Bool :=
  match iterableType with
  | [] => false
  | x :: xs => if eq x value then true else Contain eq xs value

/-- Embedding of `Difference` (slice.go:84-100), with `==` given by `eq`: the loop
`for i := 0; i < v.Len(); i++` runs over the pairs `(i, v[i])` and gathers `indexes`,
then `res[i]` is `v[indexes[i]]`. -/
def Difference (eq : α → α → Bool) (slice1 slice2 : List α) : List α :=
  let v := slice1
  let indexes := v.enum.foldl
    (fun indexes p => if !Contain eq slice2 p.2 then indexes ++ [p.1] else indexes) []
  indexes.filterMap (fun i => v[i]?)

end WithEq

end Slice

namespace optional

universe u
variable {α : Type u}

/-- Modelled from the spec: the type `Optional<T>` of package `optional`, whose source is
not among the source files (its tests are): a value of type `T`, meaningful only when
present, together with a presence flag. -/
structure Optional (α : Type u) where
  value : α
  present : Bool

/-- Modelled from the spec: `Empty<T>()` returns an absent instance; its value is the
zero value of `T`, here the default element of the type. -/
def Empty [Inhabited α] : Optional α :=
  { value := default, present := false }

/-- Modelled from the spec: `Of<T>(value)` returns a present instance wrapping `value`. -/
def Of (value : α) : Optional α :=
  { value := value, present := true }

/-- Modelled from the spec: the boolean query `IsPresent()`. -/
def Optional.IsPresent (o : Optional α) : Bool :=
  o.present

/-- Modelled from the spec: the boolean query `IsEmpty()`, the opposite of `IsPresent()`. -/
def Optional.IsEmpty (o : Optional α) : Bool :=
  !o.present

/-- Modelled from the spec: `Get()` returns the wrapped value if present, and fails with
an "absent value" panic if empty. -/
def Optional.Get (o : Optional α) : Slice.Outcome α :=
  if o.present then .ok o.value else .panic "absent value"

end optional

namespace Slice

universe u
variable {α : Type u}

/-! ## Lemmas on the loops of `Chunk` -/

theorem foldl_singletons (s : List α) (acc : List (List α)) :
    s.foldl (fun res v => res ++ [[v]]) acc = acc ++ s.map (fun v => [v]) := by
  induction s generalizing acc with
  | nil => simp
  | cons x xs ih => simp [ih]

theorem chunkStep_foldl_lt (s : List α) (size d k : Nat) (hk : k ≤ d - 1) :
    (List.range k).foldl (chunkStep s size d) [] = fullChunks s size k := by
  induction k with
  | zero => simp [fullChunks]
  | succ k ih =>
    have hne : k ≠ d - 1 := by omega
    rw [List.range_succ, List.foldl_append, ih (by omega)]
    simp [chunkStep, hne, fullChunks, List.range_succ]

theorem chunk_loop (s : List α) (size d : Nat) (hd : 1 ≤ d) :
    (List.range d).foldl (chunkStep s size d) [] =
      fullChunks s size (d - 1) ++
        (if 0 < (s.drop ((d - 1) * size)).length then [s.drop ((d - 1) * size)] else []) := by
  obtain ⟨e, rfl⟩ : ∃ e, d = e + 1 := ⟨d - 1, by omega⟩
  rw [List.range_succ, List.foldl_append, chunkStep_foldl_lt s size (e + 1) e (by simp)]
  simp only [List.foldl_cons, List.foldl_nil, Nat.add_sub_cancel]
  unfold chunkStep
  rw [if_pos (by simp)]
  split <;> simp

theorem subSlice_length (s : List α) (lo hi : Nat) (h : hi ≤ s.length) :
    (subSlice s lo hi).length = hi - lo := by
  simp [subSlice, List.length_take, Nat.min_eq_left h]

theorem fullChunks_length (s : List α) (size k : Nat) (hk : k * size ≤ s.length) :
    ∀ c ∈ fullChunks s size k, c.length = size := by
  intro c hc
  simp only [fullChunks, List.mem_map, List.mem_range] at hc
  obtain ⟨i, hi, rfl⟩ := hc
  have h1 : (i + 1) * size ≤ k * size := Nat.mul_le_mul_right _ hi
  rw [subSlice_length _ _ _ (le_trans h1 hk)]
  rw [Nat.add_mul]; omega

theorem fullChunks_join (s : List α) (size k : Nat) :
    (fullChunks s size k).flatten = s.take (k * size) := by
  induction k with
  | zero => simp [fullChunks]
  | succ k ih =>
    have hle : k * size ≤ (k + 1) * size := Nat.mul_le_mul_right _ (Nat.le_succ k)
    have : fullChunks s size (k + 1) =
        fullChunks s size k ++ [subSlice s (k * size) ((k + 1) * size)] := by
      simp [fullChunks, List.range_succ]
    rw [this, List.flatten_append, ih]
    simp only [List.flatten_cons, List.flatten_nil, List.append_nil, subSlice]
    have h2 : s.take (k * size) = (s.take ((k + 1) * size)).take (k * size) := by
      rw [List.take_take, Nat.min_eq_left hle]
    rw [h2, List.take_append_drop]

theorem flatten_singletons (s : List α) : (s.map (fun v => [v])).flatten = s := by
  induction s with
  | nil => rfl
  | cons x xs ih => simp [ih]

theorem Chunk_singletons (s : List α) (size : Int) (hs : 0 < size)
    (h : size = 1 ∨ size ≥ (s.length : Int)) : Chunk s size = s.map (fun v => [v]) := by
  unfold Chunk
  by_cases h0 : s.length = 0
  · have : s = [] := List.length_eq_zero.mp h0
    subst this; simp
  · have h1 : ¬ (s.length = 0 ∨ size ≤ 0) := by omega
    rw [if_neg h1]
    simp only [h, if_true]
    rw [foldl_singletons]; simp

theorem Chunk_divided (s : List α) (size : Int) (hs : 1 < size)
    (h : size < (s.length : Int)) :
    Chunk s size = fullChunks s size.toNat (s.length / size.toNat) ++
      (if 0 < (s.drop (s.length / size.toNat * size.toNat)).length
        then [s.drop (s.length / size.toNat * size.toNat)] else []) := by
  unfold Chunk
  have h1 : ¬ (s.length = 0 ∨ size ≤ 0) := by omega
  have h2 : ¬ (size = 1 ∨ size ≥ (s.length : Int)) := by omega
  rw [if_neg h1]
  simp only [h2, if_false]
  rw [chunk_loop _ _ _ (Nat.le_add_left 1 _)]
  simp

theorem Chunk_butLast_length (s : List α) (size : Int) (hs : 0 < size) :
    ∀ c ∈ (Chunk s size).dropLast,
      (c.length : Int) = if size < (s.length : Int) then size else 1 := by
  intro c hc
  by_cases h : size = 1 ∨ size ≥ (s.length : Int)
  · rw [Chunk_singletons s size hs h] at hc
    have hc2 := List.mem_of_mem_dropLast hc
    simp only [List.mem_map] at hc2
    obtain ⟨v, _, rfl⟩ := hc2
    split
    · simp only [List.length_singleton]; omega
    · rfl
  · have h1 : 1 < size := by omega
    have h2 : size < (s.length : Int) := by omega
    rw [Chunk_divided s size h1 h2] at hc
    rw [if_pos h2]
    have hsz : (size.toNat : Int) = size := Int.toNat_of_nonneg (by omega)
    have hmem : c ∈ fullChunks s size.toNat (s.length / size.toNat) := by
      split at hc
      · rw [List.dropLast_concat] at hc; exact hc
      · rw [List.append_nil] at hc; exact List.mem_of_mem_dropLast hc
    rw [fullChunks_length s _ _ (Nat.div_mul_le_self _ _) c hmem, hsz]

theorem Chunk_flatten_nonempty (s : List α) (size : Int) (hs : 1 ≤ size) :
    (Chunk s size).flatten = s ∧ ∀ c ∈ Chunk s size, c ≠ [] := by
  by_cases h : size = 1 ∨ size ≥ (s.length : Int)
  · rw [Chunk_singletons s size (by omega) h]
    refine ⟨?_, ?_⟩
    · exact flatten_singletons s
    · intro c hc
      simp only [List.mem_map] at hc
      obtain ⟨v, _, rfl⟩ := hc
      simp
  · have h1 : 1 < size := by omega
    have h2 : size < (s.length : Int) := by omega
    rw [Chunk_divided s size h1 h2]
    have hpos : 0 < size.toNat := by omega
    refine ⟨?_, ?_⟩
    · rw [List.flatten_append, fullChunks_join]
      split
      · simp
      · next hlen =>
        have : s.drop (s.length / size.toNat * size.toNat) = [] := by
          apply List.length_eq_zero.mp; omega
        simp only [List.flatten_nil, List.append_nil]
        conv_rhs => rw [← List.take_append_drop (s.length / size.toNat * size.toNat) s]
        rw [this, List.append_nil]
    · intro c hc
      rw [List.mem_append] at hc
      rcases hc with hc | hc
      · have := fullChunks_length s _ _ (Nat.div_mul_le_self _ _) c hc
        intro hnil; rw [hnil] at this; simp at this; omega
      · split at hc
        · next hlen =>
          simp only [List.mem_singleton] at hc
          intro hnil; rw [hc] at hnil; rw [hnil] at hlen; simp at hlen
        · simp at hc

/-! ## Lemmas on `Unique`, `Union` and `Intersection` -/

theorem copySlice_length (l : List α) : copySlice l l.length = l := by
  induction l using List.reverseRecOn with
  | nil => rfl
  | append_singleton p v ih =>
    unfold copySlice at ih ⊢
    rw [List.length_append, List.length_singleton, List.range_succ, List.filterMap_append]
    have h1 : (List.range p.length).filterMap (fun i => (p ++ [v])[i]?) =
        (List.range p.length).filterMap (fun i => p[i]?) := by
      apply List.filterMap_congr
      intro i hi
      rw [List.getElem?_append_left (List.mem_range.mp hi)]
    rw [h1, ih]
    simp

theorem foldl_snoc (sv all : List α) : sv.foldl (fun all v => all ++ [v]) all = all ++ sv := by
  induction sv generalizing all with
  | nil => simp
  | cons x xs ih => simp [ih]

theorem foldl_keep (q : α → Bool) (slice2 set : List α) :
    slice2.foldl (fun set el => if q el then set ++ [el] else set) set =
      set ++ slice2.filter q := by
  induction slice2 generalizing set with
  | nil => simp
  | cons x xs ih =>
    rw [List.foldl_cons, ih]
    by_cases hx : q x = true
    · simp [hx]
    · simp [hx]

theorem union_gather (slices : List (List α)) (all : List α) (n : Nat) :
    slices.foldl
      (fun (st : List α × Nat) sv => (sv.foldl (fun all v => all ++ [v]) st.1, st.2 + sv.length))
      (all, n) = (all ++ slices.flatten, n + slices.flatten.length) := by
  induction slices generalizing all n with
  | nil => simp
  | cons sv rest ih =>
    rw [List.foldl_cons, foldl_snoc, ih]
    simp [Nat.add_assoc]

section
variable [DecidableEq α]

theorem uniqueSkip_eq_true (v : α) (temp : List α) : uniqueSkip v temp = true ↔ v ∉ temp := by
  induction temp with
  | nil => simp [uniqueSkip]
  | cons t ts ih =>
    unfold uniqueSkip
    by_cases h : v = t
    · simp [h]
    · simp [h, ih]

theorem uniqueStep_eq (temp : List α) (v : α) :
    uniqueStep temp v = if v ∈ temp then temp else temp ++ [v] := by
  unfold uniqueStep
  by_cases h : v ∈ temp
  · have : uniqueSkip v temp = false := by
      rw [← Bool.not_eq_true, uniqueSkip_eq_true]; exact fun hn => hn h
    simp [this, h]
  · have : uniqueSkip v temp = true := (uniqueSkip_eq_true v temp).mpr h
    simp [this, h]

theorem Unique_eq_foldl (s : List α) : Unique s = s.foldl uniqueStep [] := by
  unfold Unique
  split
  · next h =>
    have : s = [] := List.length_eq_zero.mp h
    subst this; rfl
  · exact copySlice_length _

theorem Unique_nil : Unique ([] : List α) = [] := rfl

theorem Unique_concat (p : List α) (v : α) :
    Unique (p ++ [v]) = if v ∈ Unique p then Unique p else Unique p ++ [v] := by
  simp only [Unique_eq_foldl, List.foldl_append, List.foldl_cons, List.foldl_nil, uniqueStep_eq]

theorem mem_Unique (s : List α) (x : α) : x ∈ Unique s ↔ x ∈ s := by
  induction s using List.reverseRecOn with
  | nil => simp [Unique_nil]
  | append_singleton p v ih =>
    rw [Unique_concat]
    by_cases h : v ∈ Unique p
    · rw [if_pos h, List.mem_append, List.mem_singleton, ih]
      constructor
      · exact Or.inl
      · rintro (h1 | h1)
        · exact h1
        · subst h1; exact ih.mp h
    · rw [if_neg h, List.mem_append, List.mem_append, ih]

theorem Unique_concat_mem (p : List α) (v : α) :
    Unique (p ++ [v]) = if v ∈ p then Unique p else Unique p ++ [v] := by
  rw [Unique_concat]
  by_cases h : v ∈ p
  · rw [if_pos h, if_pos ((mem_Unique p v).mpr h)]
  · rw [if_neg h, if_neg (fun hn => h ((mem_Unique p v).mp hn))]

theorem nodup_Unique (s : List α) : (Unique s).Nodup := by
  induction s using List.reverseRecOn with
  | nil => simp [Unique_nil]
  | append_singleton p v ih =>
    rw [Unique_concat]
    by_cases h : v ∈ Unique p
    · rw [if_pos h]; exact ih
    · rw [if_neg h]
      rw [List.nodup_append]
      refine ⟨ih, List.nodup_singleton v, ?_⟩
      intro a ha hb
      rw [List.mem_singleton] at hb
      subst hb; exact h ha

theorem Unique_sublist (s : List α) : (Unique s).Sublist s := by
  induction s using List.reverseRecOn with
  | nil => simp [Unique_nil]
  | append_singleton p v ih =>
    rw [Unique_concat]
    split
    · exact ih.trans (List.sublist_append_left p [v])
    · exact List.Sublist.append ih (List.Sublist.refl _)

theorem Unique_of_nodup (l : List α) (h : l.Nodup) : Unique l = l := by
  induction l using List.reverseRecOn with
  | nil => rfl
  | append_singleton p v ih =>
    rw [List.nodup_append] at h
    have hv : v ∉ p := fun hm => h.2.2 hm (List.mem_singleton_self v)
    rw [Unique_concat_mem, if_neg hv, ih h.1]

theorem firstOccurrences_concat (p : List α) (v : α) :
    firstOccurrences (p ++ [v]) =
      if v ∈ p then firstOccurrences p else firstOccurrences p ++ [v] := by
  unfold firstOccurrences
  rw [List.enum_append, List.filterMap_append]
  have h1 : p.enum.filterMap (fun q => if q.2 ∈ (p ++ [v]).take q.1 then none else some q.2) =
      p.enum.filterMap (fun q => if q.2 ∈ p.take q.1 then none else some q.2) := by
    apply List.filterMap_congr
    intro q hq
    have hlt : q.1 < p.length := by
      have := List.mem_enum_iff_getElem?.mp hq
      exact (List.getElem?_eq_some_iff.mp this).1
    rw [List.take_append_of_le_length (Nat.le_of_lt hlt)]
  rw [h1]
  by_cases h : v ∈ p
  · simp [h, List.enumFrom]
  · simp [h, List.enumFrom]

theorem Unique_eq_firstOccurrences (s : List α) : Unique s = firstOccurrences s := by
  induction s using List.reverseRecOn with
  | nil => rfl
  | append_singleton p v ih => rw [Unique_concat_mem, firstOccurrences_concat, ih]

theorem Unique_inOrder (s : List α) : InFirstOccurrenceOrder (Unique s) s := by
  unfold InFirstOccurrenceOrder
  induction s using List.reverseRecOn with
  | nil => simp [Unique_nil]
  | append_singleton p v ih =>
    have hstep : (Unique p).Pairwise
        (fun x y => (p ++ [v]).indexOf x < (p ++ [v]).indexOf y) := by
      refine ih.imp_of_mem ?_
      intro a b ha hb hab
      rw [List.indexOf_append_of_mem ((mem_Unique p a).mp ha),
        List.indexOf_append_of_mem ((mem_Unique p b).mp hb)]
      exact hab
    rw [Unique_concat_mem]
    by_cases h : v ∈ p
    · rw [if_pos h]; exact hstep
    · rw [if_neg h, List.pairwise_append]
      refine ⟨hstep, List.pairwise_singleton _ _, ?_⟩
      intro a ha b hb
      rw [List.mem_singleton] at hb
      subst hb
      have ha2 := (mem_Unique p a).mp ha
      rw [List.indexOf_append_of_mem ha2, List.indexOf_append_of_not_mem h]
      have := List.indexOf_lt_length.mpr ha2
      omega

theorem Unique_filter (q : α → Bool) (s : List α) :
    Unique (s.filter q) = (Unique s).filter q := by
  induction s using List.reverseRecOn with
  | nil => rfl
  | append_singleton p v ih =>
    rw [List.filter_append, Unique_concat_mem]
    by_cases hq : q v = true
    · have : [v].filter q = [v] := by simp [hq]
      rw [this, Unique_concat_mem, ih]
      by_cases h : v ∈ p
      · have h2 : v ∈ p.filter q := List.mem_filter.mpr ⟨h, hq⟩
        rw [if_pos h, if_pos h2]
      · have h2 : v ∉ p.filter q := fun hm => h (List.mem_filter.mp hm).1
        rw [if_neg h, if_neg h2, List.filter_append, this]
    · have : [v].filter q = [] := by simp [hq]
      rw [this, List.append_nil, ih]
      split
      · rfl
      · rw [List.filter_append, this, List.append_nil]

theorem hash_isSome (slice1 : List α) (m : BoolMap α) (el : α) :
    ((slice1.foldl (fun h v => h.set v true) m) el).isSome = true ↔
      el ∈ slice1 ∨ (m el).isSome = true := by
  induction slice1 generalizing m with
  | nil => simp
  | cons v vs ih =>
    rw [List.foldl_cons, ih, List.mem_cons]
    unfold BoolMap.set
    by_cases hv : el = v
    · simp [hv]
    · simp [hv, or_comm]

theorem intersect2_eq (slice1 slice2 : List α) :
    intersect2 slice1 slice2 = slice2.filter (fun el => decide (el ∈ slice1)) := by
  unfold intersect2
  simp only
  rw [copySlice_length, foldl_keep, List.nil_append]
  apply List.filter_congr
  intro el _
  rw [Bool.eq_iff_iff, decide_eq_true_iff]
  exact (hash_isSome slice1 BoolMap.empty el).trans (by simp [BoolMap.empty])

theorem mem_intersect2 (slice1 slice2 : List α) (x : α) :
    x ∈ intersect2 slice1 slice2 ↔ x ∈ slice1 ∧ x ∈ slice2 := by
  rw [intersect2_eq, List.mem_filter]
  simp [and_comm]

theorem reduceLoop_reduceFunc (rest : List (List α)) (i : Nat) (acc : List α) :
    reduceLoop reduceFunc i (some acc) (rest.map some) = some (rest.foldl intersect2 acc) := by
  induction rest generalizing i acc with
  | nil => rfl
  | cons s rest ih =>
    simp only [List.map_cons, reduceLoop, reduceFunc, List.foldl_cons]
    exact ih _ _

theorem Reduce_reduceFunc (s0 : List α) (rest : List (List α)) :
    Reduce ((s0 :: rest).map some) reduceFunc none = some (rest.foldl intersect2 s0) := by
  cases rest with
  | nil => rfl
  | cons s1 rest =>
    simp only [List.map_cons, Reduce, reduceFunc, List.foldl_cons]
    exact reduceLoop_reduceFunc rest 2 _

theorem Intersection_cons (s0 : List α) (rest : List (List α)) :
    Intersection (s0 :: rest) = some (Unique (rest.foldl intersect2 s0)) := by
  unfold Intersection
  rw [if_neg (by simp), Reduce_reduceFunc]

theorem mem_foldl_intersect2 (rest : List (List α)) (acc : List α) (x : α) :
    x ∈ rest.foldl intersect2 acc ↔ x ∈ acc ∧ ∀ s ∈ rest, x ∈ s := by
  induction rest generalizing acc with
  | nil => simp
  | cons s rest ih =>
    rw [List.foldl_cons, ih, mem_intersect2]
    simp [and_assoc]

end

/-! ## Lemmas on the indexed loops -/

theorem foldl_keep_map {β γ : Type _} (q : β → Bool) (g : β → γ) (l : List β) (acc : List γ) :
    l.foldl (fun res p => if q p then res ++ [g p] else res) acc =
      acc ++ (l.filter q).map g := by
  induction l generalizing acc with
  | nil => simp
  | cons x xs ih =>
    rw [List.foldl_cons, ih]
    by_cases hx : q x = true
    · simp [hx]
    · simp [hx]

theorem foldl_count {β : Type _} (q : β → Bool) (l : List β) (k : Nat) :
    l.foldl (fun n p => if q p then n + 1 else n) k = k + (l.filter q).length := by
  induction l generalizing k with
  | nil => simp
  | cons x xs ih =>
    rw [List.foldl_cons, ih]
    by_cases hx : q x = true
    · simp [hx]; omega
    · simp [hx]

theorem foldl_has {β : Type _} (q : β → Bool) (l : List β) (has : Bool) :
    l.foldl (fun has p => if q p then true else has) has = (has || l.any q) := by
  induction l generalizing has with
  | nil => simp
  | cons x xs ih =>
    rw [List.foldl_cons, ih]
    by_cases hx : q x = true
    · simp [hx]
    · simp [hx]

theorem foldl_groups {β γ : Type _} (q : β → Bool) (g : β → γ) (l : List β)
    (acc : List γ × List γ) :
    l.foldl (fun groups p =>
        if q p then (groups.1 ++ [g p], groups.2) else (groups.1, groups.2 ++ [g p])) acc =
      (acc.1 ++ (l.filter q).map g, acc.2 ++ (l.filter (fun p => !q p)).map g) := by
  induction l generalizing acc with
  | nil => simp
  | cons x xs ih =>
    rw [List.foldl_cons, ih]
    by_cases hx : q x = true
    · simp [hx]
    · simp [hx]

theorem enum_filter_snd (q : α → Bool) (a : List α) :
    (a.enum.filter (fun p => q p.2)).map Prod.snd = a.filter q := by
  conv_rhs => rw [← List.enum_map_snd a, List.filter_map]
  rfl

theorem enum_index_lookup (a : List α) (l : List (Nat × α)) (h : ∀ p ∈ l, p ∈ a.enum) :
    (l.map Prod.fst).filterMap (fun i => a[i]?) = l.map Prod.snd := by
  rw [List.filterMap_map, ← List.filterMap_eq_map]
  apply List.filterMap_congr
  intro p hp
  exact List.mem_enum_iff_getElem?.mp (h p hp)

theorem mem_enum_filter (a : List α) (q : Nat × α → Bool) (x : α) :
    x ∈ (a.enum.filter q).map Prod.snd ↔ ∃ i, a[i]? = some x ∧ q (i, x) = true := by
  simp only [List.mem_map, List.mem_filter]
  constructor
  · rintro ⟨p, ⟨hp, hq⟩, rfl⟩
    exact ⟨p.1, List.mem_enum_iff_getElem?.mp hp, hq⟩
  · rintro ⟨i, hi, hq⟩
    exact ⟨(i, x), ⟨List.mem_enum_iff_getElem?.mpr hi, hq⟩, rfl⟩

theorem enum_filter_sublist (a : List α) (q : Nat × α → Bool) :
    ((a.enum.filter q).map Prod.snd).Sublist a := by
  have h := (List.filter_sublist (p := q) a.enum).map Prod.snd
  rwa [List.enum_map_snd] at h

theorem forall_enum_iff (a : List α) (q : Nat × α → Bool) :
    (∀ p ∈ a.enum, q p = true) ↔ ∀ i x, a[i]? = some x → q (i, x) = true := by
  constructor
  · intro h i x hi
    exact h (i, x) (List.mem_enum_iff_getElem?.mpr hi)
  · intro h p hp
    exact h p.1 p.2 (List.mem_enum_iff_getElem?.mp hp)

theorem Every_iff (s : List α) (f : Nat → α → Bool) :
    Every s f = true ↔ ∀ i x, s[i]? = some x → f i x = true := by
  unfold Every
  simp only [foldl_count, Nat.zero_add, beq_iff_eq]
  rw [← forall_enum_iff s (fun p => f p.1 p.2)]
  conv_lhs => rw [← List.enum_length (l := s)]
  exact List.filter_length_eq_length

theorem None_iff (s : List α) (f : Nat → α → Bool) :
    None s f = true ↔ ∀ i x, s[i]? = some x → f i x = false := by
  unfold None
  simp only [foldl_count, Nat.zero_add, beq_iff_eq]
  have h := forall_enum_iff s (fun p => !f p.1 p.2)
  simp only [Bool.not_eq_true'] at h
  rw [← h]
  conv_lhs => rw [← List.enum_length (l := s)]
  rw [List.filter_length_eq_length]
  simp

theorem Some_iff (s : List α) (f : Nat → α → Bool) :
    Some s f = true ↔ ∃ i x, s[i]? = some x ∧ f i x = true := by
  unfold Some
  rw [foldl_has, Bool.false_or, List.any_eq_true]
  constructor
  · rintro ⟨p, hp, hq⟩
    exact ⟨p.1, p.2, List.mem_enum_iff_getElem?.mp hp, hq⟩
  · rintro ⟨i, x, hi, hq⟩
    exact ⟨(i, x), List.mem_enum_iff_getElem?.mpr hi, hq⟩

theorem Filter_eq (s : List α) (f : Nat → α → Bool) :
    Filter s f = (s.enum.filter (fun p => f p.1 p.2)).map Prod.snd := by
  unfold Filter
  rw [foldl_keep_map (fun p => f p.1 p.2) Prod.snd, List.nil_append]

theorem GroupBy_eq (s : List α) (f : Nat → α → Bool) :
    GroupBy s f = ((s.enum.filter (fun p => f p.1 p.2)).map Prod.snd,
      (s.enum.filter (fun p => !f p.1 p.2)).map Prod.snd) := by
  unfold GroupBy
  rw [foldl_groups (fun p => f p.1 p.2) Prod.snd]
  simp

/-! ## Lemmas on `Find`, `Drop`, `Reduce` and the index operations -/

theorem findLoop_none (f : Nat → α → Bool) (l : List α) (i : Nat) :
    (findLoop f i l).1 = none ↔ ∀ j x, l[j]? = some x → f (i + j) x = false := by
  induction l generalizing i with
  | nil => simp [findLoop]
  | cons y ys ih =>
    unfold findLoop
    by_cases hy : f i y = true
    · simp only [hy, if_true]
      constructor
      · intro h; cases h
      · intro h
        have := h 0 y (List.getElem?_cons_zero ..)
        rw [Nat.add_zero, hy] at this
        cases this
    · rw [Bool.not_eq_true] at hy
      simp only [hy, Bool.false_eq_true, if_false]
      rw [ih (i + 1)]
      constructor
      · intro h j x hj
        cases j with
        | zero =>
          simp only [List.getElem?_cons_zero, Option.some.injEq] at hj
          subst hj; simpa using hy
        | succ j =>
          have := h j x (by simpa using hj)
          rwa [Nat.add_assoc, Nat.add_comm 1 j] at this
      · intro h j x hj
        have := h (j + 1) x (by simpa using hj)
        rwa [Nat.add_assoc, Nat.add_comm 1 j]

theorem findLoop_first (f : Nat → α → Bool) (l : List α) (i k : Nat) (x : α)
    (hk : l[k]? = some x) (hx : f (i + k) x = true)
    (hlt : ∀ j, j < k → ∀ y, l[j]? = some y → f (i + j) y = false) :
    findLoop f i l = (some (i + k), List.range' i (k + 1)) := by
  induction l generalizing i k with
  | nil => simp at hk
  | cons y ys ih =>
    unfold findLoop
    cases k with
    | zero =>
      simp only [List.getElem?_cons_zero, Option.some.injEq] at hk
      subst hk
      rw [Nat.add_zero] at hx
      simp [hx, List.range']
    | succ k =>
      have hy : f i y = false := by
        have := hlt 0 (Nat.succ_pos k) y (List.getElem?_cons_zero ..)
        rwa [Nat.add_zero] at this
      have hrec := ih (i + 1) k (by simpa using hk)
        (by rwa [Nat.add_assoc, Nat.add_comm 1 k])
        (by
          intro j hj z hz
          have := hlt (j + 1) (Nat.succ_lt_succ hj) z (by simpa using hz)
          rwa [Nat.add_assoc, Nat.add_comm 1 j])
      simp only [hy, Bool.false_eq_true, if_false, hrec]
      rw [List.range'_succ i (k + 1)]
      simp [Nat.add_assoc, Nat.add_comm 1 k]

theorem copySlice_take (src : List α) (n : Nat) (h : n ≤ src.length) :
    copySlice src n = src.take n := by
  have h1 : copySlice src n = copySlice (src.take n) (src.take n).length := by
    unfold copySlice
    rw [List.length_take, Nat.min_eq_left h]
    apply List.filterMap_congr
    intro i hi
    rw [List.getElem?_take_of_lt (List.mem_range.mp hi)]
  rw [h1, copySlice_length]

theorem copy_from (src : List α) (n m : Nat) :
    (List.range m).filterMap (fun i => src[i + n]?) = copySlice (src.drop n) m := by
  unfold copySlice
  apply List.filterMap_congr
  intro i _
  rw [List.getElem?_drop, Nat.add_comm]

theorem excessBits_spec (fuel m : Nat) (h : 1 ≤ excessBits fuel m) :
    2 ^ 53 ≤ m / 2 ^ (excessBits fuel m - 1) := by
  induction fuel generalizing m with
  | zero => simp [excessBits] at h
  | succ f ih =>
    unfold excessBits at h ⊢
    by_cases hm : m < 2 ^ 53
    · rw [if_pos hm] at h; omega
    · rw [if_neg hm] at h ⊢
      rw [Nat.add_sub_cancel]
      by_cases h0 : excessBits f (m / 2) = 0
      · rw [h0]; simpa using hm
      · have := ih (m / 2) (by omega)
        rw [Nat.div_div_eq_div_mul] at this
        have e : 2 * 2 ^ (excessBits f (m / 2) - 1) = 2 ^ excessBits f (m / 2) := by
          rw [← pow_succ']; congr 1; omega
        rwa [e] at this

theorem roundFloat64_small (m : Nat) (h : m < 2 ^ 53) : roundFloat64 m = m := by
  unfold roundFloat64
  have : excessBits 64 m = 0 := by unfold excessBits; rw [if_pos h]
  simp [this]

theorem roundFloat64_large (m : Nat) (h : 2 ^ 53 ≤ m) : 2 ^ 53 ≤ roundFloat64 m := by
  unfold roundFloat64
  simp only
  by_cases h0 : excessBits 64 m = 0
  · rw [if_pos h0]; exact h
  · rw [if_neg h0]
    have hs := excessBits_spec 64 m (by omega)
    have hq : 2 ^ 52 ≤ m / 2 ^ excessBits 64 m := by
      have e : 2 ^ excessBits 64 m = 2 ^ (excessBits 64 m - 1) * 2 := by
        rw [← pow_succ]; congr 1; omega
      rw [e, ← Nat.div_div_eq_div_mul]
      omega
    have hp : 2 ≤ 2 ^ excessBits 64 m := by
      calc 2 = 2 ^ 1 := rfl
        _ ≤ 2 ^ excessBits 64 m := Nat.pow_le_pow_right (by decide) (by omega)
    have key : 2 ^ 53 ≤ (m / 2 ^ excessBits 64 m) * 2 ^ excessBits 64 m := by
      calc 2 ^ 53 = 2 ^ 52 * 2 := by norm_num
        _ ≤ (m / 2 ^ excessBits 64 m) * 2 ^ excessBits 64 m := Nat.mul_le_mul hq hp
    split
    · exact le_trans key (Nat.mul_le_mul_right _ (Nat.le_succ _))
    · exact key

theorem roundFloat64_ge_iff (k len : Nat) (hlen : len < 2 ^ 53) :
    roundFloat64 k ≥ roundFloat64 len ↔ k ≥ len := by
  rw [roundFloat64_small len hlen]
  by_cases hk : k < 2 ^ 53
  · rw [roundFloat64_small k hk]
  · have := roundFloat64_large k (by omega)
    constructor <;> intro _ <;> omega

theorem Drop_pos (s : List α) (n : Int) (h : 0 < n) (hb : s.length < 2 ^ 53) :
    Drop s n = s.drop n.toNat := by
  unfold Drop
  rw [if_neg (by omega)]
  simp only
  by_cases hge : roundFloat64 n.natAbs ≥ roundFloat64 s.length
  · rw [if_pos hge, List.drop_eq_nil_iff.mpr]
    have := (roundFloat64_ge_iff _ _ hb).mp hge
    omega
  · have hlt : ¬ n.natAbs ≥ s.length := fun hh => hge ((roundFloat64_ge_iff _ _ hb).mpr hh)
    rw [if_neg hge, if_pos (show n > 0 from h), copy_from]
    have hlen : (↑s.length - n).toNat = (s.drop n.toNat).length := by
      rw [List.length_drop]; omega
    rw [hlen, copySlice_length]

theorem Drop_neg (s : List α) (n : Int) (h : n < 0) (hb : s.length < 2 ^ 53) :
    Drop s n = s.take (s.length - n.natAbs) := by
  unfold Drop
  rw [if_neg (by omega)]
  simp only
  by_cases hge : roundFloat64 n.natAbs ≥ roundFloat64 s.length
  · rw [if_pos hge]
    have := (roundFloat64_ge_iff _ _ hb).mp hge
    have : s.length - n.natAbs = 0 := by omega
    rw [this, List.take_zero]
  · have hlt : ¬ n.natAbs ≥ s.length := fun hh => hge ((roundFloat64_ge_iff _ _ hb).mpr hh)
    rw [if_neg hge, if_neg (show ¬ n > 0 by omega)]
    have hlen : (↑s.length + n).toNat = s.length - n.natAbs := by omega
    rw [hlen]
    exact copySlice_take s _ (Nat.sub_le _ _)

/-- On a slice of fewer than `2^53` elements, whose length `float64` holds exactly,
`Drop(s, n)` is `s` without its first `n` elements when `n > 0`, `s` without its last
`|n|` elements when `n < 0`, `s` itself when `n = 0`, and empty when `|n| >= len(s)`; so
`len(Drop(s, n)) == max(0, len(s) - |n|)`. -/
theorem Drop_below_float64_precision (s : List α) (n : Int) (hb : s.length < 2 ^ 53) :
    (0 < n → Drop s n = s.drop n.toNat) ∧
      (n < 0 → Drop s n = s.take (s.length - n.natAbs)) ∧
      (n = 0 → Drop s n = s) ∧
      ((n.natAbs : Int) ≥ (s.length : Int) → Drop s n = []) ∧
      ((Drop s n).length : Int) = max 0 ((s.length : Int) - (n.natAbs : Int)) := by
  refine ⟨fun h => Drop_pos s n h hb, fun h => Drop_neg s n h hb, ?_, ?_, ?_⟩
  · intro h; unfold Drop; rw [if_pos h]
  · intro h
    unfold Drop
    by_cases h0 : n = 0
    · rw [if_pos h0]
      apply List.length_eq_zero.mp
      omega
    · rw [if_neg h0]; simp only
      rw [if_pos ((roundFloat64_ge_iff _ _ hb).mpr (by omega))]
  · rcases lt_trichotomy n 0 with h | h | h
    · rw [Drop_neg s n h hb, List.length_take]; omega
    · subst h; unfold Drop; rw [if_pos rfl]; simp
    · rw [Drop_pos s n h hb, List.length_drop]; omega

theorem reduceLoop_eq {β : Type u} (f : Nat → β → β → β) (i : Nat) (acc : β) (l : List β) :
    reduceLoop f i acc l = (l.enumFrom i).foldl (fun acc p => f p.1 acc p.2) acc := by
  induction l generalizing i acc with
  | nil => rfl
  | cons x xs ih => simp only [reduceLoop, List.enumFrom_cons, List.foldl_cons, ih]

theorem reflectSlice_ok (v : List α) (i j : Int) (h0 : 0 ≤ i) (h1 : i ≤ j)
    (h2 : j ≤ (v.length : Int)) :
    reflectSlice v i j = .ok ((v.take j.toNat).drop i.toNat) := by
  unfold reflectSlice
  rw [if_neg (by omega)]

theorem reflectSlice_init (v : List α) (j : Int) (h1 : 0 ≤ j) (h2 : j ≤ (v.length : Int)) :
    reflectSlice v 0 j = .ok (v.take j.toNat) := by
  rw [reflectSlice_ok v 0 j (le_refl 0) h1 h2]; rfl

theorem reflectSlice_tail (v : List α) (i : Int) (h0 : 0 ≤ i) (h1 : i ≤ (v.length : Int)) :
    reflectSlice v i v.length = .ok (v.drop i.toNat) := by
  rw [reflectSlice_ok v i v.length h0 h1 (le_refl _)]
  simp

theorem set_take_succ_append_drop (s : List α) (i : Nat) (x : α) (h : i < s.length) :
    (s.take (i + 1) ++ s.drop i).set i x = s.take i ++ [x] ++ s.drop i := by
  rw [List.take_succ, List.getElem?_eq_getElem h, Option.toList_some, List.append_assoc,
    List.set_append_right _ _ (by simp [Nat.min_eq_left (Nat.le_of_lt h)])]
  simp [Nat.min_eq_left (Nat.le_of_lt h)]

/-! ## Lemmas on the set operations under an arbitrary `==` -/

theorem uniqueSkip_false_gen (eq : α → α → Bool) (v : α) (temp : List α) :
    WithEq.uniqueSkip eq v temp = false ↔ ∃ t ∈ temp, eq v t = true := by
  induction temp with
  | nil => simp [WithEq.uniqueSkip]
  | cons t ts ih =>
    unfold WithEq.uniqueSkip
    by_cases h : eq v t = true
    · simp [h]
    · simp [h, ih]

theorem Unique_foldl_gen (eq : α → α → Bool) (s : List α) :
    WithEq.Unique eq s = s.foldl (WithEq.uniqueStep eq) [] := by
  unfold WithEq.Unique
  split
  · next h =>
    have : s = [] := List.length_eq_zero.mp h
    subst this; rfl
  · exact copySlice_length _

theorem uniqueStep_subset_gen (eq : α → α → Bool) (temp : List α) (v t : α) (h : t ∈ temp) :
    t ∈ WithEq.uniqueStep eq temp v := by
  unfold WithEq.uniqueStep
  split
  · exact List.mem_append_left _ h
  · exact h

theorem foldl_uniqueStep_subset_gen (eq : α → α → Bool) (l temp : List α) (t : α)
    (h : t ∈ temp) : t ∈ l.foldl (WithEq.uniqueStep eq) temp := by
  induction l generalizing temp with
  | nil => exact h
  | cons x xs ih => exact ih _ (uniqueStep_subset_gen eq temp x t h)

theorem foldl_uniqueStep_absorb_gen (eq : α → α → Bool) (l temp : List α)
    (h : ∀ v ∈ l, ∃ t ∈ temp, eq v t = true) :
    l.foldl (WithEq.uniqueStep eq) temp = temp := by
  induction l with
  | nil => rfl
  | cons x xs ih =>
    have hx : WithEq.uniqueSkip eq x temp = false :=
      (uniqueSkip_false_gen eq x temp).mpr (h x (List.mem_cons_self x xs))
    rw [List.foldl_cons]
    unfold WithEq.uniqueStep
    rw [hx]
    exact ih (fun v hv => h v (List.mem_cons_of_mem x hv))

theorem foldl_uniqueStep_cover_gen (eq : α → α → Bool) (l temp : List α)
    (hrefl : ∀ v ∈ l, eq v v = true) :
    ∀ v ∈ l, ∃ t ∈ l.foldl (WithEq.uniqueStep eq) temp, eq v t = true := by
  induction l generalizing temp with
  | nil => intro v hv; cases hv
  | cons x xs ih =>
    intro v hv
    rw [List.foldl_cons]
    rcases List.mem_cons.mp hv with hvx | hvxs
    · subst hvx
      have hstep : ∃ t ∈ WithEq.uniqueStep eq temp v, eq v t = true := by
        by_cases hs : WithEq.uniqueSkip eq v temp = true
        · refine ⟨v, ?_, hrefl v (List.mem_cons_self v xs)⟩
          unfold WithEq.uniqueStep
          rw [if_pos hs]
          exact List.mem_append_right _ (List.mem_singleton_self v)
        · rw [Bool.not_eq_true] at hs
          obtain ⟨t, ht, he⟩ := (uniqueSkip_false_gen eq v temp).mp hs
          exact ⟨t, uniqueStep_subset_gen eq temp v t ht, he⟩
      obtain ⟨t, ht, he⟩ := hstep
      exact ⟨t, foldl_uniqueStep_subset_gen eq xs _ t ht, he⟩
    · exact ih _ (fun w hw => hrefl w (List.mem_cons_of_mem x hw)) v hvxs

theorem Unique_append_self_gen (eq : α → α → Bool) (s : List α)
    (hrefl : ∀ v ∈ s, eq v v = true) :
    WithEq.Unique eq (s ++ s) = WithEq.Unique eq s := by
  rw [Unique_foldl_gen, Unique_foldl_gen, List.foldl_append]
  exact foldl_uniqueStep_absorb_gen eq s _ (foldl_uniqueStep_cover_gen eq s [] hrefl)

theorem Union_gen_of_ne_nil (eq : α → α → Bool) (slices : List (List α)) (h : slices ≠ []) :
    WithEq.Union eq slices = some (WithEq.Unique eq slices.flatten) := by
  unfold WithEq.Union
  have h0 : ¬ slices.length = 0 := fun hl => h (List.length_eq_zero.mp hl)
  rw [if_neg h0, union_gather]
  simp only [List.nil_append, Nat.zero_add]
  rw [copySlice_length]

theorem mapSet_isSome_gen (eq : α → α → Bool) (slice1 : List α) (m : BoolMap α) (el : α) :
    ((slice1.foldl (fun h v => WithEq.mapSet eq h v true) m) el).isSome = true ↔
      (∃ k ∈ slice1, eq el k = true) ∨ (m el).isSome = true := by
  induction slice1 generalizing m with
  | nil => simp
  | cons v vs ih =>
    rw [List.foldl_cons, ih]
    unfold WithEq.mapSet
    by_cases hv : eq el v = true
    · simp [hv]
    · simp [hv]

theorem intersect2_gen (eq : α → α → Bool) (slice1 slice2 : List α) :
    WithEq.intersect2 eq slice1 slice2 =
      slice2.filter (fun el => slice1.any (fun k => eq el k)) := by
  unfold WithEq.intersect2
  simp only
  rw [copySlice_length, foldl_keep, List.nil_append]
  apply List.filter_congr
  intro el _
  rw [Bool.eq_iff_iff, List.any_eq_true]
  exact (mapSet_isSome_gen eq slice1 BoolMap.empty el).trans (by simp [BoolMap.empty])

theorem Intersection_pair_gen (eq : α → α → Bool) (a b : List α) :
    WithEq.Intersection eq [a, b] = some (WithEq.Unique eq (WithEq.intersect2 eq a b)) := by
  unfold WithEq.Intersection
  rw [if_neg (by simp)]
  rfl

theorem Contain_gen (eq : α → α → Bool) (l : List α) (x : α) :
    WithEq.Contain eq l x = l.any (fun y => eq y x) := by
  induction l with
  | nil => simp [WithEq.Contain]
  | cons y ys ih =>
    unfold WithEq.Contain
    by_cases h : eq y x = true
    · simp [h]
    · simp [h, ih]

theorem Difference_gen (eq : α → α → Bool) (a b : List α) :
    WithEq.Difference eq a b = a.filter (fun x => !(b.any (fun y => eq y x))) := by
  unfold WithEq.Difference
  simp only
  rw [foldl_keep_map (fun p => !WithEq.Contain eq b p.2) Prod.fst, List.nil_append,
    enum_index_lookup a _ (fun p hp => (List.mem_filter.mp hp).1),
    enum_filter_snd (fun x => !WithEq.Contain eq b x)]
  apply List.filter_congr
  intro x _
  rw [Contain_gen]

theorem uniqueSkip_gen_decide [DecidableEq α] (v : α) (temp : List α) :
    WithEq.uniqueSkip (fun a b => decide (a = b)) v temp = uniqueSkip v temp := by
  induction temp with
  | nil => rfl
  | cons t ts ih =>
    unfold WithEq.uniqueSkip uniqueSkip
    by_cases h : v = t
    · simp [h]
    · simp [h, ih]

/-- Where `==` is the equality of the element type, `Unique` under `==` is `Unique`. -/
theorem Unique_gen_decide [DecidableEq α] (s : List α) :
    WithEq.Unique (fun a b => decide (a = b)) s = Unique s := by
  have hstep : WithEq.uniqueStep (fun (a b : α) => decide (a = b)) = uniqueStep := by
    funext temp v
    unfold WithEq.uniqueStep uniqueStep
    rw [uniqueSkip_gen_decide]
  unfold WithEq.Unique Unique
  rw [hstep]

/-- Where `==` is the equality of the element type, `Intersection` under `==` is
`Intersection`. -/
theorem Intersection_gen_decide [DecidableEq α] (slices : List (List α)) :
    WithEq.Intersection (fun a b => decide (a = b)) slices = Intersection slices := by
  have hset : ∀ (m : BoolMap α) (k : α) (b : Bool),
      WithEq.mapSet (fun (a b : α) => decide (a = b)) m k b = BoolMap.set m k b := by
    intro m k b
    funext k2
    unfold WithEq.mapSet BoolMap.set
    simp
  have h2 : ∀ a b : List α,
      WithEq.intersect2 (fun (a b : α) => decide (a = b)) a b = intersect2 a b := by
    intro a b
    unfold WithEq.intersect2 intersect2
    simp only [hset]
  have hred : WithEq.reduceFunc (fun (a b : α) => decide (a = b)) = reduceFunc := by
    funext i x y
    unfold WithEq.reduceFunc reduceFunc
    cases x <;> cases y <;> simp [h2]
  unfold WithEq.Intersection Intersection
  rw [hred]
  simp only [Unique_gen_decide]

/-! ## Properties of the specification, C1 to C10 -/

/-- C1, at the failing input: `Chunk([1,2], 2)` returns `[[1],[2]]`, so with the positive
size `2` the first chunk, which is not the last one, has one element and not two. -/
theorem Chunk_size_eq_length_counterexample :
    Chunk ([1, 2] : List Nat) 2 = [[1], [2]] ∧ (0 : Int) < 2 ∧
      ¬ AllButLastHaveSize ([1, 2] : List Nat) 2 := by
  unfold AllButLastHaveSize; decide

/-- C2, refuted as stated: `Intersection([1,2], [2,1])` is `[2,1]`, whose elements are not
in the order of their first occurrence in the first sequence `[1,2]`. -/
theorem Intersection_order_counterexample :
    Intersection [([1, 2] : List Nat), [2, 1]] = some [2, 1] ∧
      ¬ InFirstOccurrenceOrder ([2, 1] : List Nat) [1, 2] := by
  unfold InFirstOccurrenceOrder; decide

/-- C2, amended: for all sequences `a` and `b`, `Intersection(a, b)` returns a sequence
whose elements appear in the order in which they first occur in the second sequence `b`;
it is `Unique(b)` restricted to the values that occur in `a`. -/
theorem Intersection_order_of_second [DecidableEq α] (a b : List α) :
    ∃ r, Intersection [a, b] = some r ∧ InFirstOccurrenceOrder r b ∧
      r = (Unique b).filter (fun x => decide (x ∈ a)) := by
  refine ⟨(Unique b).filter (fun x => decide (x ∈ a)), ?_, ?_, rfl⟩
  · rw [Intersection_cons, List.foldl_cons, List.foldl_nil, intersect2_eq, Unique_filter]
  · exact (Unique_inOrder b).sublist (List.filter_sublist _)

/-- C3, at the failing input: `SortByField([{Name:"b"},{Name:"a"}], "Name")` with no
sort-type argument panics on `sortType[0]`, while the same call with `"asc"` returns no
error and the slice sorted ascending by `Name`. -/
theorem SortByField_without_sortType_panics :
    SortByField ⟨.struct [("Name", .string)], [[.string "b"], [.string "a"]]⟩ "Name" [] =
        .panic "runtime error: index out of range [0] with length 0" ∧
      SortByField ⟨.struct [("Name", .string)], [[.string "b"], [.string "a"]]⟩ "Name" ["asc"] =
        .ok [[.string "a"], [.string "b"]] :=
  ⟨rfl, rfl⟩

/-- C4, at the failing input: `DeleteByIndex([1,2,3], 3)` with no end argument, where
`start = len(s)` is out of bounds, passes the start check and panics in `v.Slice(4, 3)`
instead of returning the InvalidStartIndex error. -/
theorem DeleteByIndex_start_eq_len_panics :
    DeleteByIndex ([1, 2, 3] : List Nat) 3 [] =
      .panic "reflect.Value.Slice: slice index out of bounds" := by
  decide

/-- C5: for every sequence `s` and every `size >= 1`, the chunks of `Chunk(s, size)`
concatenated in order give back exactly `s`, and no chunk is empty. -/
theorem Chunk_flatten_eq_and_no_empty_chunk (s : List α) (size : Int) (hs : 1 ≤ size) :
    (Chunk s size).flatten = s ∧ ∀ c ∈ Chunk s size, c ≠ [] :=
  Chunk_flatten_nonempty s size hs

theorem Chunk_flatten_eq_and_no_empty_chunk_witness :
    Chunk ([1, 2, 3, 4, 5] : List Nat) 2 = [[1, 2], [3, 4], [5]] ∧ (1 : Int) ≤ 2 ∧
      ((Chunk ([1, 2, 3, 4, 5] : List Nat) 2).flatten = [1, 2, 3, 4, 5] ∧
        ∀ c ∈ Chunk ([1, 2, 3, 4, 5] : List Nat) 2, c ≠ []) :=
  ⟨by decide, by decide, Chunk_flatten_eq_and_no_empty_chunk [1, 2, 3, 4, 5] 2 (by decide)⟩

/-- C6: for every sequence `s`, `Unique(s)` contains no two equal elements, contains
exactly the values that occur in `s`, and is the subsequence of `s` that keeps each value's
first occurrence, so its elements are in the order of their first occurrence in `s`. -/
theorem Unique_first_occurrences [DecidableEq α] (s : List α) :
    (Unique s).Nodup ∧ (∀ x, x ∈ Unique s ↔ x ∈ s) ∧
      Unique s = firstOccurrences s ∧ (Unique s).Sublist s ∧
      InFirstOccurrenceOrder (Unique s) s :=
  ⟨nodup_Unique s, mem_Unique s, Unique_eq_firstOccurrences s, Unique_sublist s,
    Unique_inOrder s⟩

/-- C7: for every sequence `s`, `Unique(Unique(s)) == Unique(s)`. -/
theorem Unique_idempotent [DecidableEq α] (s : List α) : Unique (Unique s) = Unique s :=
  Unique_of_nodup (Unique s) (nodup_Unique s)

/-- C8, refuted as stated: on `s = []float64{NaN}`, `Union(s, s)` is `[NaN, NaN]` while
`Unique(s)` is `[NaN]`; and `Union()` with no input is `nil`. -/
theorem Union_self_nan_counterexample :
    WithEq.Union F64.goEq [[F64.nan], [F64.nan]] = some [F64.nan, F64.nan] ∧
      WithEq.Unique F64.goEq [F64.nan] = [F64.nan] ∧
      WithEq.Union F64.goEq ([] : List (List F64)) = none := by
  decide

/-- C8, amended: for every sequence `s` whose elements are all `==` to themselves,
`Union(s, s) == Unique(s)`; and for one or more inputs, `Union` is `Unique` applied to
their concatenation in argument order, while `Union()` with no input is `nil`. -/
theorem Union_self_and_concatenation (eq : α → α → Bool) (s : List α)
    (slices : List (List α)) :
    ((∀ v ∈ s, eq v v = true) → WithEq.Union eq [s, s] = some (WithEq.Unique eq s)) ∧
      (slices ≠ [] → WithEq.Union eq slices = some (WithEq.Unique eq slices.flatten)) ∧
      WithEq.Union eq ([] : List (List α)) = none := by
  refine ⟨?_, Union_gen_of_ne_nil eq slices, rfl⟩
  intro hrefl
  rw [Union_gen_of_ne_nil eq [s, s] (by simp)]
  simp only [List.flatten_cons, List.flatten_nil, List.append_nil]
  rw [Unique_append_self_gen eq s hrefl]

theorem Union_self_and_concatenation_witness :
    WithEq.Union F64.goEq [[F64.val 1, F64.val 2, F64.val 1], [F64.val 1, F64.val 2, F64.val 1]] =
        some (WithEq.Unique F64.goEq [F64.val 1, F64.val 2, F64.val 1]) ∧
      WithEq.Union F64.goEq [[F64.val 1, F64.nan], [F64.nan, F64.val 1]] =
        some (WithEq.Unique F64.goEq [[F64.val 1, F64.nan], [F64.nan, F64.val 1]].flatten) ∧
      WithEq.Union F64.goEq [[F64.val 1, F64.nan], [F64.nan, F64.val 1]] =
        some [F64.val 1, F64.nan, F64.nan] :=
  ⟨(Union_self_and_concatenation F64.goEq [F64.val 1, F64.val 2, F64.val 1]
      [[F64.val 1, F64.nan], [F64.nan, F64.val 1]]).1 (by decide),
    (Union_self_and_concatenation F64.goEq [F64.val 1, F64.val 2, F64.val 1]
      [[F64.val 1, F64.nan], [F64.nan, F64.val 1]]).2.1 (by decide),
    by decide⟩

/-- C9, refuted as stated: on `s = []float64{NaN}`, `Intersection(s, s)` is empty, since a
map lookup never finds a NaN key, while `Unique(s)` is `[NaN]`. -/
theorem Intersection_self_nan_counterexample :
    WithEq.Intersection F64.goEq [[F64.nan], [F64.nan]] = some [] ∧
      WithEq.Unique F64.goEq [F64.nan] = [F64.nan] := by
  decide

/-- C9, amended: for every sequence `s` whose elements are all `==` to themselves,
`Intersection(s, s) == Unique(s)`. -/
theorem Intersection_self_of_reflexive (eq : α → α → Bool) (s : List α)
    (hrefl : ∀ v ∈ s, eq v v = true) :
    WithEq.Intersection eq [s, s] = some (WithEq.Unique eq s) := by
  rw [Intersection_pair_gen, intersect2_gen]
  congr 2
  rw [List.filter_eq_self]
  intro x hx
  rw [List.any_eq_true]
  exact ⟨x, hx, hrefl x hx⟩

theorem Intersection_self_of_reflexive_witness :
    (∀ v ∈ [F64.val 1, F64.val 2, F64.val 1], F64.goEq v v = true) ∧
      WithEq.Intersection F64.goEq
          [[F64.val 1, F64.val 2, F64.val 1], [F64.val 1, F64.val 2, F64.val 1]] =
        some (WithEq.Unique F64.goEq [F64.val 1, F64.val 2, F64.val 1]) ∧
      WithEq.Unique F64.goEq [F64.val 1, F64.val 2, F64.val 1] = [F64.val 1, F64.val 2] :=
  ⟨by decide,
    Intersection_self_of_reflexive F64.goEq [F64.val 1, F64.val 2, F64.val 1] (by decide),
    by decide⟩

/-- C10: for every non-empty list of input sequences `s1..sn`, `Intersection` returns a
sequence in which a value occurs if and only if it occurs in every `si`, and which
contains no value twice. -/
theorem Intersection_mem_iff_nodup [DecidableEq α] (slices : List (List α)) (h : slices ≠ []) :
    ∃ r, Intersection slices = some r ∧ (∀ x, x ∈ r ↔ ∀ s ∈ slices, x ∈ s) ∧ r.Nodup := by
  cases slices with
  | nil => exact absurd rfl h
  | cons s0 rest =>
    refine ⟨_, Intersection_cons s0 rest, ?_, nodup_Unique _⟩
    intro x
    rw [mem_Unique, mem_foldl_intersect2]
    simp

theorem Intersection_mem_iff_nodup_witness :
    [([1, 2, 2, 1, 4] : List Nat), [4, 2, 3, 1], [1, 1, 4, 5]] ≠ [] ∧
      Intersection [([1, 2, 2, 1, 4] : List Nat), [4, 2, 3, 1], [1, 1, 4, 5]] = some [1, 4] ∧
      ∃ r, Intersection [([1, 2, 2, 1, 4] : List Nat), [4, 2, 3, 1], [1, 1, 4, 5]] = some r ∧
        (∀ x, x ∈ r ↔ ∀ s ∈ [([1, 2, 2, 1, 4] : List Nat), [4, 2, 3, 1], [1, 1, 4, 5]], x ∈ s) ∧
        r.Nodup :=
  ⟨by decide, by decide,
    Intersection_mem_iff_nodup [[1, 2, 2, 1, 4], [4, 2, 3, 1], [1, 1, 4, 5]] (by decide)⟩

/-! ## Properties of the specification, C11 to C20 -/

/-- C11, refuted as stated: on `s = []float64{NaN}`, `Difference(s, s)` is `[NaN]` and not
empty, since `Contain` finds no element `==` to NaN. -/
theorem Difference_self_nan_counterexample :
    WithEq.Difference F64.goEq [F64.nan] [F64.nan] = [F64.nan] ∧
      WithEq.Difference F64.goEq [F64.nan] [F64.nan] ≠ [] := by
  decide

/-- C11, amended: for all sequences `a` and `b`, `Difference(a, b)` is exactly the
subsequence of `a`, order and multiplicity preserved, of the elements that are `==` to no
element of `b`; and `Difference(s, s)` is empty for every `s` whose elements are all `==`
to themselves. -/
theorem Difference_filter_and_self_empty (eq : α → α → Bool) (a b s : List α) :
    WithEq.Difference eq a b = a.filter (fun x => !(b.any (fun y => eq y x))) ∧
      (WithEq.Difference eq a b).Sublist a ∧
      ((∀ v ∈ s, eq v v = true) → WithEq.Difference eq s s = []) := by
  refine ⟨Difference_gen eq a b, ?_, ?_⟩
  · rw [Difference_gen]; exact List.filter_sublist a
  · intro hrefl
    rw [Difference_gen, List.filter_eq_nil_iff]
    intro x hx
    have : s.any (fun y => eq y x) = true := List.any_eq_true.mpr ⟨x, hx, hrefl x hx⟩
    simp [this]

theorem Difference_filter_and_self_empty_witness :
    WithEq.Difference F64.goEq [F64.val 1, F64.val 2, F64.val 3, F64.val 2] [F64.val 2] =
        [F64.val 1, F64.val 3] ∧
      (∀ v ∈ [F64.val 1, F64.val 2], F64.goEq v v = true) ∧
      WithEq.Difference F64.goEq [F64.val 1, F64.val 2] [F64.val 1, F64.val 2] = [] :=
  ⟨by decide, by decide,
    (Difference_filter_and_self_empty F64.goEq [] [] [F64.val 1, F64.val 2]).2.2 (by decide)⟩

/-- C12, at the failing input: on a slice of `2^53 + 1` elements and `n = 2^53`, both
`float64(n)` and `float64(len(s))` are `2^53`, so `Drop(s, n)` returns the empty slice,
while `s` without its first `n` elements has one element. -/
theorem Drop_float64_rounding_drops_everything :
    Drop (List.replicate (2 ^ 53 + 1) ()) (2 ^ 53) = [] ∧
      (List.replicate (2 ^ 53 + 1) ()).drop (2 ^ 53) = [()] ∧
      roundFloat64 (2 ^ 53 + 1) = 2 ^ 53 := by
  refine ⟨?_, ?_, by decide⟩
  · unfold Drop
    rw [if_neg (by decide)]
    simp only [List.length_replicate]
    rw [if_pos (by decide)]
  · rw [List.drop_replicate]
    rfl

/-- C13, refuted as stated: on the slice of slices `[][]int{{1}}`, index `0` and the
single element `[]int{2}` of the element type `[]int`, `InsertByIndex` returns the
InvalidValueType error. -/
theorem InsertByIndex_slice_element_counterexample :
    (GoVal.slice .int [.int 2]).typeOf = GoType.sliceOf .int ∧
      InsertByIndex (.sliceOf .int) [.slice .int [.int 1]] 0 (.slice .int [.int 2]) =
        .error "InvalidValueType" :=
  ⟨rfl, rfl⟩

/-- C13, amended: for every sequence `s` and index with `0 <= index <= len(s)`,
`InsertByIndex(s, index, v)` returns no error and `s[0..index) ++ [v] ++ s[index..]` when
the dynamic type of `v` is the element type of `s` and that type is not a slice type, and
`s[0..index) ++ b ++ s[index..]` when the value is a sequence `b` of the same element
type. -/
theorem InsertByIndex_in_range (elemT : GoType) (s : List GoVal) (index : Int)
    (h0 : 0 ≤ index) (h1 : index ≤ (s.length : Int)) :
    (∀ v : GoVal, v.typeOf = elemT → (∀ e, elemT ≠ .sliceOf e) →
        InsertByIndex elemT s index v =
          .ok (s.take index.toNat ++ [v] ++ s.drop index.toNat)) ∧
      (∀ b : List GoVal, InsertByIndex elemT s index (.slice elemT b) =
          .ok (s.take index.toNat ++ b ++ s.drop index.toNat)) := by
  have hguard : ¬ (index < 0 ∨ index > (s.length : Int)) := by omega
  have single : ∀ v : GoVal, v.typeOf = elemT →
      (if elemT ≠ v.typeOf then (Outcome.error "InvalidValueType" : Outcome (List GoVal))
        else if index = (s.length : Int) then .ok (s ++ [v])
        else match appendSlice (reflectSlice s 0 (index + 1))
            (reflectSlice s index s.length) with
          | .ok v1 => .ok (v1.set index.toNat v)
          | other => other) =
        .ok (s.take index.toNat ++ [v] ++ s.drop index.toNat) := by
    intro v hv
    rw [if_neg (by simp [hv])]
    by_cases hlen : index = (s.length : Int)
    · rw [if_pos hlen]
      have : index.toNat = s.length := by omega
      rw [this]; simp
    · rw [if_neg hlen, reflectSlice_init s (index + 1) (by omega) (by omega),
        reflectSlice_tail s index h0 h1]
      simp only [appendSlice]
      have h2 : (index + 1).toNat = index.toNat + 1 := by omega
      rw [h2, set_take_succ_append_drop s index.toNat v (by omega)]
  constructor
  · intro v hv hns
    cases v with
    | int n => unfold InsertByIndex; rw [if_neg hguard]; exact single _ hv
    | string x => unfold InsertByIndex; rw [if_neg hguard]; exact single _ hv
    | slice e items => exact absurd hv.symm (hns e)
  · intro b
    unfold InsertByIndex
    rw [if_neg hguard]
    simp only [ne_eq, not_true_eq_false, if_false]
    rw [reflectSlice_init s index h0 h1, reflectSlice_tail s index h0 h1,
      reflectSlice_init b b.length (by omega) (le_refl _)]
    simp [appendSlice]

theorem InsertByIndex_in_range_witness :
    InsertByIndex .int [.int 1, .int 2, .int 3] 1 (.int 99) =
        .ok [.int 1, .int 99, .int 2, .int 3] ∧
      InsertByIndex .int [.int 1, .int 2, .int 3] 1 (.slice .int [.int 7, .int 8]) =
        .ok [.int 1, .int 7, .int 8, .int 2, .int 3] :=
  ⟨(InsertByIndex_in_range .int [.int 1, .int 2, .int 3] 1 (by decide) (by decide)).1
      (.int 99) rfl (fun e h => by cases h),
    (InsertByIndex_in_range .int [.int 1, .int 2, .int 3] 1 (by decide) (by decide)).2
      [.int 7, .int 8]⟩

/-- C14: for every non-empty sequence `s` and `0 <= start < len(s)`, `DeleteByIndex(s,
start)` returns no error and `s[0..start) ++ s[start+1..]`; for every `end` with
`start < end <= len(s)`, `DeleteByIndex(s, start, end)` returns no error and
`s[0..start) ++ s[end..]`; and `end <= start` or `end > len(s)` returns the
InvalidEndIndex error. -/
theorem DeleteByIndex_in_range (s : List α) (start : Int) (h0 : 0 ≤ start)
    (h1 : start < (s.length : Int)) :
    DeleteByIndex s start [] = .ok (s.take start.toNat ++ s.drop (start.toNat + 1)) ∧
      (∀ (e : Int) (more : List Int), start < e → e ≤ (s.length : Int) →
        DeleteByIndex s start (e :: more) = .ok (s.take start.toNat ++ s.drop e.toNat)) ∧
      (∀ (e : Int) (more : List Int), e ≤ start ∨ e > (s.length : Int) →
        DeleteByIndex s start (e :: more) = .error "InvalidEndIndex") := by
  have hguard : ¬ (s.length = 0 ∨ start < 0 ∨ start > (s.length : Int)) := by omega
  refine ⟨?_, ?_, ?_⟩
  · unfold DeleteByIndex
    simp only
    rw [if_neg hguard, reflectSlice_init s start h0 (by omega),
      reflectSlice_tail s (start + 1) (by omega) (by omega)]
    have : (start + 1).toNat = start.toNat + 1 := by omega
    rw [this]; rfl
  · intro e more he1 he2
    unfold DeleteByIndex
    simp only
    rw [if_neg hguard, if_neg (by omega), reflectSlice_init s start h0 (by omega),
      reflectSlice_tail s e (by omega) he2]
    rfl
  · intro e more he
    unfold DeleteByIndex
    simp only
    rw [if_neg hguard, if_pos he]

theorem DeleteByIndex_in_range_witness :
    DeleteByIndex ([1, 2, 3, 4] : List Nat) 1 [] = .ok [1, 3, 4] ∧
      DeleteByIndex ([1, 2, 3, 4] : List Nat) 1 [3] = .ok [1, 4] ∧
      DeleteByIndex ([1, 2, 3, 4] : List Nat) 1 [1] = .error "InvalidEndIndex" ∧
      DeleteByIndex ([1, 2, 3, 4] : List Nat) 1 [5] = .error "InvalidEndIndex" :=
  ⟨(DeleteByIndex_in_range [1, 2, 3, 4] 1 (by decide) (by decide)).1,
    (DeleteByIndex_in_range [1, 2, 3, 4] 1 (by decide) (by decide)).2.1 3 []
      (by decide) (by decide),
    (DeleteByIndex_in_range [1, 2, 3, 4] 1 (by decide) (by decide)).2.2 1 []
      (Or.inl (by decide)),
    (DeleteByIndex_in_range [1, 2, 3, 4] 1 (by decide) (by decide)).2.2 5 []
      (Or.inr (by decide))⟩

/-- C15: `Reduce(s, f, zero)` returns `zero` when `s` is empty, returns `s[0]` whatever
`f` is when `len(s) = 1`, and for `len(s) = n >= 2` returns the left fold
`f(n-1, ... f(2, f(0, s[0], s[1]), s[2]) ..., s[n-1])`, whatever `zero` is. -/
theorem Reduce_zero_single_fold {β : Type u} (f g : Nat → β → β → β) (zero zero2 : β)
    (x x0 x1 : β) (more : List β) :
    Reduce [] f zero = zero ∧
      Reduce [x] f zero = x ∧ Reduce [x] g zero = Reduce [x] f zero ∧
      Reduce (x0 :: x1 :: more) f zero =
        (more.enumFrom 2).foldl (fun acc p => f p.1 acc p.2) (f 0 x0 x1) ∧
      Reduce (x0 :: x1 :: more) f zero2 = Reduce (x0 :: x1 :: more) f zero :=
  ⟨rfl, rfl, rfl, reduceLoop_eq f 2 (f 0 x0 x1) more, rfl⟩

/-- C16: for every sequence `s` and predicate `p(index, value)`, `GroupBy(s, p)` is the
pair `(A, B)` of the subsequence of elements on which `p` is true and the subsequence on
which `p` is false, each in the original order, and `len(A) + len(B) == len(s)`; and
`GroupBy([1,2,3,4], isEven) = ([2,4],[1,3])`. -/
theorem GroupBy_partitions (s : List α) (p : Nat → α → Bool) :
    GroupBy s p = ((s.enum.filter (fun q => p q.1 q.2)).map Prod.snd,
        (s.enum.filter (fun q => !p q.1 q.2)).map Prod.snd) ∧
      (GroupBy s p).1.Sublist s ∧ (GroupBy s p).2.Sublist s ∧
      (GroupBy s p).1.length + (GroupBy s p).2.length = s.length ∧
      GroupBy ([1, 2, 3, 4] : List Nat) (fun _ v => v % 2 == 0) = ([2, 4], [1, 3]) := by
  refine ⟨GroupBy_eq s p, ?_, ?_, ?_, by decide⟩
  · rw [GroupBy_eq]; exact enum_filter_sublist s _
  · rw [GroupBy_eq]; exact enum_filter_sublist s _
  · rw [GroupBy_eq]
    simp only [List.length_map]
    have := List.length_eq_length_filter_add (l := s.enum) (fun q => p q.1 q.2)
    rw [List.enum_length] at this
    exact this.symm

/-- C17: for every sequence `s` and predicate `p(index, value)`, `Filter(s, p)` is the
subsequence of `s`, in order, of exactly the elements `s[i]` with `p(i, s[i])` true; its
length is at most `len(s)` and every element of it satisfies the predicate. -/
theorem Filter_subsequence (s : List α) (p : Nat → α → Bool) :
    Filter s p = (s.enum.filter (fun q => p q.1 q.2)).map Prod.snd ∧
      (Filter s p).Sublist s ∧ (Filter s p).length ≤ s.length ∧
      (∀ x, x ∈ Filter s p ↔ ∃ i, s[i]? = some x ∧ p i x = true) := by
  refine ⟨Filter_eq s p, ?_, ?_, ?_⟩
  · rw [Filter_eq]; exact enum_filter_sublist s _
  · rw [Filter_eq]; exact (enum_filter_sublist s _).length_le
  · intro x
    rw [Filter_eq]
    exact mem_enum_filter s (fun q => p q.1 q.2) x

/-- C18: for every sequence `s` and predicate `p(index, value)`, `Find(s, p)` returns
`(s[i], true)` where `i` is the smallest index with `p(i, s[i])` true, having called `p`
at the indexes `0..i` only, and returns `(nil, false)` exactly when `p` is false at every
index. -/
theorem Find_first_match (s : List α) (p : Nat → α → Bool) :
    (∀ i x, s[i]? = some x → p i x = true →
        (∀ j, j < i → ∀ y, s[j]? = some y → p j y = false) →
        Find s p = (some x, true) ∧ FindCalls s p = List.range (i + 1)) ∧
      (Find s p = (none, false) ↔ ∀ i x, s[i]? = some x → p i x = false) := by
  constructor
  · intro i x hi hx hlt
    have h := findLoop_first p s 0 i x hi (by rwa [Nat.zero_add])
      (fun j hj y hy => by rw [Nat.zero_add]; exact hlt j hj y hy)
    rw [Nat.zero_add] at h
    constructor
    · unfold Find; rw [h]; simp only [hi]
    · unfold FindCalls; rw [h, List.range_eq_range']
  · have h := findLoop_none p s 0
    simp only [Nat.zero_add] at h
    rw [← h]
    unfold Find
    cases (findLoop p 0 s).1 with
    | none => simp
    | some k => simp

theorem Find_first_match_witness :
    Find ([1, 3, 4, 6] : List Nat) (fun _ v => v % 2 == 0) = (some 4, true) ∧
      FindCalls ([1, 3, 4, 6] : List Nat) (fun _ v => v % 2 == 0) = [0, 1, 2] :=
  (Find_first_match [1, 3, 4, 6] (fun _ v => v % 2 == 0)).1 2 4 rfl rfl
    (by
      intro j hj y hy
      match j, hj with
      | 0, _ => cases hy; rfl
      | 1, _ => cases hy; rfl)

/-- C19: for every sequence `s` and predicate `p(index, value)`, `Every(s, p)` is true iff
`p(i, s[i])` holds at every index, `Some(s, p)` is true iff it holds at at least one index,
and `None(s, p)` is true iff it holds at no index; on the empty sequence `Every` and `None`
are true and `Some` is false, and `None(s, p) == not Some(s, p)`. -/
theorem Every_Some_None_quantifiers (s : List α) (p : Nat → α → Bool) :
    (Every s p = true ↔ ∀ i x, s[i]? = some x → p i x = true) ∧
      (Some s p = true ↔ ∃ i x, s[i]? = some x ∧ p i x = true) ∧
      (None s p = true ↔ ∀ i x, s[i]? = some x → p i x = false) ∧
      Every [] p = true ∧ None [] p = true ∧ Some [] p = false ∧
      None s p = !Some s p := by
  refine ⟨Every_iff s p, Some_iff s p, None_iff s p, rfl, rfl, rfl, ?_⟩
  rw [Bool.eq_iff_iff, None_iff, Bool.not_eq_true', ← Bool.not_eq_true, Some_iff]
  constructor
  · rintro h ⟨i, x, hi, hx⟩
    rw [h i x hi] at hx; cases hx
  · intro h i x hi
    rw [← Bool.not_eq_true]
    exact fun hx => h ⟨i, x, hi, hx⟩

/-- C20, at the failing input: `FlattenDeep([]interface{}{[]interface{}{1, 2}, 3,
[]int{4}})` returns its three items as they are, the inner slices not flattened, since
the items of a `[]interface{}` have kind Interface; the nested slice of static type
`[][][]string{{{"a", "b"}}, {{"c", "d"}}}` is flattened to its four leaves. -/
theorem FlattenDeep_interface_items_kept :
    FlattenDeep (.slice .iface [.slice .iface [.int 1, .int 2], .int 3, .slice .int [.int 4]]) =
        [.slice .iface [.int 1, .int 2], .int 3, .slice .int [.int 4]] ∧
      FlattenDeep (.slice (.sliceOf (.sliceOf .string))
          [.slice (.sliceOf .string) [.slice .string [.string "a", .string "b"]],
            .slice (.sliceOf .string) [.slice .string [.string "c", .string "d"]]]) =
        [.string "a", .string "b", .string "c", .string "d"] :=
  ⟨rfl, rfl⟩

/-! ## Properties of the specification, C21 to C22 -/

/-- C22: for every non-empty sequence `s` and every `size` with `size == 1` or
`size >= len(s)`, `Chunk(s, size)` returns `len(s)` chunks, the singletons `[s0], [s1], ...`
of the elements of `s` in order; when `len(s) > 1` this is not the single chunk `[s]`. -/
theorem Chunk_singleton_chunks (s : List α) (size : Int) (hne : s ≠ [])
    (hsize : size = 1 ∨ size ≥ (s.length : Int)) :
    Chunk s size = s.map (fun v => [v]) ∧ (Chunk s size).length = s.length ∧
      (1 < s.length → Chunk s size ≠ [s]) := by
  have hlen : 0 < s.length := List.length_pos.mpr hne
  have hs : 0 < size := by omega
  have h := Chunk_singletons s size hs hsize
  refine ⟨h, by rw [h, List.length_map], ?_⟩
  intro h1 heq
  have := congrArg List.length heq
  rw [h, List.length_map, List.length_singleton] at this
  omega

theorem Chunk_singleton_chunks_witness :
    Chunk ([1, 2, 3] : List Nat) 5 = [[1], [2], [3]] ∧
      (Chunk ([1, 2, 3] : List Nat) 5).length = 3 ∧
      Chunk ([1, 2, 3] : List Nat) 5 ≠ [[1, 2, 3]] :=
  ⟨(Chunk_singleton_chunks [1, 2, 3] 5 (by decide) (Or.inr (by decide))).1,
    (Chunk_singleton_chunks [1, 2, 3] 5 (by decide) (Or.inr (by decide))).2.1,
    (Chunk_singleton_chunks [1, 2, 3] 5 (by decide) (Or.inr (by decide))).2.2 (by decide)⟩

end Slice

namespace optional

/-- C21: for every value `v`, `Of(v)` is present and `Of(v).Get()` returns `v` without
failing, while `Get()` on `Empty()` panics and returns no value. -/
theorem Of_Get_returns_and_Empty_Get_panics {α : Type u} [Inhabited α] (v : α) :
    (Of v).IsPresent = true ∧ (Of v).Get = .ok v ∧
      (∃ msg, (Empty : Optional α).Get = .panic msg) ∧
      ∀ x, (Empty : Optional α).Get ≠ .ok x := by
  refine ⟨rfl, rfl, ⟨"absent value", rfl⟩, ?_⟩
  intro x h
  simp [Optional.Get, Empty] at h

end optional
